import Mathlib

/-!
Shallow embedding of the line-adjustment library (src/lib.rs).

Strings are modelled as lists of characters; a word's length is its number
of characters (the Rust code measures byte length of the slice, which
coincides with the character count on single-byte text, the regime the
spec's scalar-unit arithmetic describes).  Mutation of the last line in
the Rust code becomes replacement of the last element of the line list.
-/

/-- Rust enum DocError: the single error kind of the library. -/
inductive DocError where
  | WordTooLong
deriving DecidableEq

/-- Rust struct Line: the words packed on one line plus a running
character counter (sum of word lengths, spaces excluded). -/
structure Line where
  words : List (List Char)
  char_counter : Nat
deriving DecidableEq

/-- Line::new_with_word. -/
def Line.new_with_word (word : List Char) : Line :=
  ⟨[word], word.length⟩

/-- Line::add_word. -/
def Line.add_word (l : Line) (word : List Char) : Line :=
  ⟨l.words ++ [word], l.char_counter + word.length⟩

/-- Line::char_count. -/
def Line.char_count (l : Line) : Nat := l.char_counter

/-- Line::word_count. -/
def Line.word_count (l : Line) : Nat := l.words.length

/-- Line::word_fits: the fit test used during packing. -/
def Line.word_fits (l : Line) (word : List Char) (line_width : Nat) : Bool :=
  l.char_count + l.word_count + word.length ≤ line_width

/-- Rust struct Document: the packed lines and the configured width. -/
structure Document where
  lines : List Line
  line_width : Nat
deriving DecidableEq

/-- Document::add_word: start a new line when there is no last line or the
word does not fit it, otherwise append the word to the last line. -/
def Document.add_word (d : Document) (word : List Char) : Document :=
  match d.lines.getLast? with
  | none => ⟨d.lines ++ [Line.new_with_word word], d.line_width⟩
  | some line =>
    if line.word_fits word d.line_width then
      ⟨d.lines.dropLast ++ [line.add_word word], d.line_width⟩
    else
      ⟨d.lines ++ [Line.new_with_word word], d.line_width⟩

/-- Character-level model of Rust str::split_whitespace: accumulate the
current word (reversed) and flush it at whitespace boundaries. -/
def split_whitespace_go : List Char → List Char → List (List Char)
  | [], acc => if acc = [] then [] else [acc.reverse]
  | c :: rest, acc =>
    if c.isWhitespace then
      if acc = [] then split_whitespace_go rest []
      else acc.reverse :: split_whitespace_go rest []
    else split_whitespace_go rest (c :: acc)

/-- str::split_whitespace: whitespace-delimited words of the input, in
order, empty fragments discarded. -/
def split_whitespace (input : List Char) : List (List Char) :=
  split_whitespace_go input []

/-- The loop of Document::from_str over the word sequence: validate each
word's length against the width, failing fast, and feed it to add_word. -/
def Document.from_str_go (d : Document) : List (List Char) → Except DocError Document
  | [] => Except.ok d
  | word :: rest =>
    if word.length > d.line_width then Except.error DocError.WordTooLong
    else Document.from_str_go (d.add_word word) rest

/-- Document::from_str. -/
def Document.from_str (input : List Char) (line_width : Nat) : Except DocError Document :=
  Document.from_str_go ⟨[], line_width⟩ (split_whitespace input)

/-- The add_whitespaces closure: a run of count space characters. -/
def add_whitespaces (count : Nat) : List Char := List.replicate count ' '

/-- The inner word loop of Document::format_to_string for a multi-word
line: emit each word and, after each of the first gap_count words, a run
of base_width + 1 spaces for the first extra gaps, base_width otherwise. -/
def render_words (base_width extra gap_count : Nat) : Nat → List (List Char) → List Char
  | _, [] => []
  | word_number, word :: rest =>
    word
      ++ (if word_number < gap_count then
            add_whitespaces (if word_number < extra then base_width + 1 else base_width)
          else [])
      ++ render_words base_width extra gap_count (word_number + 1) rest

/-- The per-line body of Document::format_to_string: distribute
line_width - char_count spaces over the word_count - 1 gaps of a
multi-word line; left-align a line of at most one word with trailing
spaces. -/
def Document.render_line (line_width : Nat) (line : Line) : List Char :=
  if line.word_count > 1 then
    render_words ((line_width - line.char_count) / (line.word_count - 1))
      ((line_width - line.char_count) % (line.word_count - 1))
      (line.word_count - 1) 0 line.words
  else
    (match line.words.head? with
     | some word => word
     | none => []) ++ add_whitespaces (line_width - line.char_count)

/-- The line loop of Document::format_to_string: render each line and push
a newline after every line whose index is below total - 1. -/
def render_lines (line_width total : Nat) : Nat → List Line → List Char
  | _, [] => []
  | line_number, line :: rest =>
    Document.render_line line_width line
      ++ (if line_number < total - 1 then ['\n'] else [])
      ++ render_lines line_width total (line_number + 1) rest

/-- Document::format_to_string. -/
def Document.format_to_string (d : Document) : List Char :=
  render_lines d.line_width d.lines.length 0 d.lines

/-- transform: build the Document, then render it. -/
def transform (input : List Char) (line_width : Nat) : Except DocError (List Char) :=
  (Document.from_str input line_width).map Document.format_to_string

/-!  Spec-side vocabulary: the constructions the claims speak about. -/

/-- Splitting a string on the newline character, keeping empty segments,
as Rust str::split yields them. -/
def splitOnNl : List Char → List (List Char)
  | [] => [[]]
  | c :: rest =>
    if c = '\n' then [] :: splitOnNl rest
    else
      match splitOnNl rest with
      | [] => [[c]]
      | g :: gs => (c :: g) :: gs

/-- Words interleaved with explicit gap widths: a run of spaces of the
next gap width after every word but the last, nothing after the last. -/
def joinWithGaps : List (List Char) → List Nat → List Char
  | [], _ => []
  | [word], _ => word
  | word :: rest, g :: gs => word ++ List.replicate g ' ' ++ joinWithGaps rest gs
  | word :: rest, [] => word ++ joinWithGaps rest []

/-- Segments joined by a single newline between consecutive segments and
no trailing newline. -/
def joinedWithNewlines : List (List Char) → List Char
  | [] => []
  | [s] => s
  | s :: rest => s ++ '\n' :: joinedWithNewlines rest

/-!  Helper vocabulary for the proofs. -/

/-- A word as produced by whitespace splitting: nonempty and free of
whitespace characters. -/
def plainWord (word : List Char) : Prop :=
  word ≠ [] ∧ ∀ c ∈ word, c.isWhitespace = false

/-- The packing invariant of a line: at least one word, a consistent
character counter, the width bound with one reserved space per gap, and
plain words only. -/
def LineInv (w : Nat) (l : Line) : Prop :=
  l.words ≠ [] ∧
  l.char_counter = (l.words.map List.length).sum ∧
  l.char_counter + (l.words.length - 1) ≤ w ∧
  ∀ word ∈ l.words, plainWord word

/-- All words of a document, in packing order. -/
def docWords (d : Document) : List (List Char) :=
  (d.lines.map Line.words).flatten

/-- The gap widths the renderer produces for indices k, k+1, ... :
base_width + 1 below extra, base_width from extra on. -/
def mkGaps (base_width extra : Nat) : Nat → Nat → List Nat
  | _, 0 => []
  | k, n + 1 => (if k < extra then base_width + 1 else base_width) :: mkGaps base_width extra (k + 1) n

/-- Word/gap chunks: each chunk is a word followed by its (whitespace)
gap; the text is their concatenation. -/
def chunksText : List (List Char × List Char) → List Char
  | [] => []
  | p :: rest => p.1 ++ p.2 ++ chunksText rest

/-- Pair each word with its gap: replicate-space gaps from the width list,
and the trailing text after the final word. -/
def zipGaps : List (List Char) → List Nat → List Char → List (List Char × List Char)
  | [], _, _ => []
  | [word], _, tail => [(word, tail)]
  | word :: rest, g :: gs, tail => (word, List.replicate g ' ') :: zipGaps rest gs tail
  | word :: rest, [], tail => (word, []) :: zipGaps rest [] tail

/-!  Basic list facts used throughout. -/

/-- A list with a known last element is its dropLast plus that element. -/
theorem getLast?_decomp {α : Type} (l : List α) (a : α) (h : l.getLast? = some a) :
    l = l.dropLast ++ [a] := by
  induction l with
  | nil => simp [List.getLast?] at h
  | cons x rest ih =>
    cases rest with
    | nil =>
      simp [List.getLast?] at h
      simp [h]
    | cons y t =>
      rw [List.getLast?_cons_cons] at h
      have := ih h
      calc x :: y :: t = x :: ((y :: t).dropLast ++ [a]) := by rw [← this]
        _ = (x :: y :: t).dropLast ++ [a] := by simp [List.dropLast]

/-- The sum of a replicated list of naturals. -/
theorem sum_replicate_nat (n a : Nat) : (List.replicate n a).sum = n * a := by
  induction n with
  | zero => simp
  | succ m ih => simp [List.replicate_succ, ih, Nat.succ_mul]; omega

/-!  Facts about Document.add_word. -/

/-- add_word leaves the configured width unchanged. -/
theorem add_word_width (d : Document) (word : List Char) :
    (d.add_word word).line_width = d.line_width := by
  unfold Document.add_word
  cases h : d.lines.getLast? with
  | none => rfl
  | some line => by_cases hf : line.word_fits word d.line_width = true <;> simp [hf]

/-- add_word on an empty line list starts the first line. -/
theorem add_word_nil (d : Document) (word : List Char) (h : d.lines = []) :
    (d.add_word word).lines = [Line.new_with_word word] := by
  unfold Document.add_word
  rw [h]
  rfl

/-- add_word when the word fits the last line replaces that line by the
line extended with the word. -/
theorem add_word_fits (d : Document) (line : Line) (word : List Char)
    (h : d.lines.getLast? = some line) (hf : line.word_fits word d.line_width = true) :
    (d.add_word word).lines = d.lines.dropLast ++ [line.add_word word] := by
  unfold Document.add_word
  rw [h]
  simp [hf]

/-- add_word when the word does not fit the last line appends a fresh
line holding only the word. -/
theorem add_word_new (d : Document) (line : Line) (word : List Char)
    (h : d.lines.getLast? = some line) (hf : line.word_fits word d.line_width = false) :
    (d.add_word word).lines = d.lines ++ [Line.new_with_word word] := by
  unfold Document.add_word
  rw [h]
  simp [hf]

/-- add_word appends exactly the given word to the document's word
sequence. -/
theorem add_word_words (d : Document) (word : List Char) :
    docWords (d.add_word word) = docWords d ++ [word] := by
  cases h : d.lines.getLast? with
  | none =>
    have hnil : d.lines = [] := List.getLast?_eq_none_iff.mp h
    simp [docWords, add_word_nil d word hnil, hnil, Line.new_with_word]
  | some line =>
    have hd : d.lines = d.lines.dropLast ++ [line] := getLast?_decomp _ _ h
    by_cases hf : line.word_fits word d.line_width = true
    · rw [docWords, docWords, add_word_fits d line word h hf]
      conv_rhs => rw [hd]
      simp [Line.add_word]
    · rw [docWords, add_word_new d line word h (by simpa using hf)]
      simp [docWords, Line.new_with_word]

/-- A freshly created line satisfies the packing invariant when its word
is plain and no longer than the width. -/
theorem new_with_word_inv (w : Nat) (word : List Char)
    (hw : word.length ≤ w) (hp : plainWord word) :
    LineInv w (Line.new_with_word word) := by
  refine ⟨by simp [Line.new_with_word], by simp [Line.new_with_word], ?_, ?_⟩
  · simpa [Line.new_with_word] using hw
  · intro wrd hm
    simp [Line.new_with_word] at hm
    simpa [hm] using hp

/-- Extending a line with a word that fits preserves the packing
invariant. -/
theorem line_add_word_inv (w : Nat) (l : Line) (word : List Char)
    (hf : l.word_fits word w = true) (hp : plainWord word) (hinv : LineInv w l) :
    LineInv w (l.add_word word) := by
  obtain ⟨hne, hsum, hbound, hplain⟩ := hinv
  have hfit : l.char_counter + l.words.length + word.length ≤ w := by
    simpa [Line.word_fits, Line.char_count, Line.word_count] using hf
  refine ⟨by simp [Line.add_word], ?_, ?_, ?_⟩
  · simp [Line.add_word, hsum]
  · simp only [Line.add_word, List.length_append, List.length_singleton]
    omega
  · intro wrd hm
    simp [Line.add_word] at hm
    rcases hm with hm | hm
    · exact hplain wrd hm
    · simpa [hm] using hp

/-- add_word preserves the packing invariant of all lines, given a plain
word that passed the length validation. -/
theorem add_word_inv (d : Document) (word : List Char)
    (hw : word.length ≤ d.line_width) (hp : plainWord word)
    (hinv : ∀ l ∈ d.lines, LineInv d.line_width l) :
    ∀ l ∈ (d.add_word word).lines, LineInv d.line_width l := by
  intro l hl
  cases h : d.lines.getLast? with
  | none =>
    have hnil : d.lines = [] := List.getLast?_eq_none_iff.mp h
    rw [add_word_nil d word hnil] at hl
    simp at hl
    subst hl
    exact new_with_word_inv _ _ hw hp
  | some line =>
    have hd : d.lines = d.lines.dropLast ++ [line] := getLast?_decomp _ _ h
    have hlinemem : line ∈ d.lines := by rw [hd]; simp
    by_cases hf : line.word_fits word d.line_width = true
    · rw [add_word_fits d line word h hf] at hl
      rcases List.mem_append.mp hl with hl | hl
      · exact hinv l (by rw [hd]; exact List.mem_append_left _ hl)
      · simp at hl
        subst hl
        exact line_add_word_inv _ _ _ hf hp (hinv line hlinemem)
    · rw [add_word_new d line word h (by simpa using hf)] at hl
      rcases List.mem_append.mp hl with hl | hl
      · exact hinv l hl
      · simp at hl
        subst hl
        exact new_with_word_inv _ _ hw hp

/-!  Facts about the validation/packing loop Document.from_str_go. -/

/-- from_str_go leaves the configured width unchanged on success. -/
theorem from_str_go_width : ∀ (ws : List (List Char)) (d doc : Document),
    Document.from_str_go d ws = Except.ok doc → doc.line_width = d.line_width := by
  intro ws
  induction ws with
  | nil =>
    intro d doc h
    simp [Document.from_str_go] at h
    simp [← h]
  | cons word rest ih =>
    intro d doc h
    rw [Document.from_str_go] at h
    by_cases hlen : word.length > d.line_width
    · simp [hlen] at h
    · simp [hlen] at h
      have := ih _ _ h
      rwa [add_word_width] at this

/-- from_str_go succeeds exactly when every word meets the length
bound. -/
theorem from_str_go_ok_iff : ∀ (ws : List (List Char)) (d : Document),
    (∃ doc, Document.from_str_go d ws = Except.ok doc) ↔
      ∀ word ∈ ws, word.length ≤ d.line_width := by
  intro ws
  induction ws with
  | nil => intro d; simp [Document.from_str_go]
  | cons word rest ih =>
    intro d
    rw [Document.from_str_go]
    by_cases hlen : word.length > d.line_width
    · simp [hlen]
    · simp only [hlen, if_false]
      rw [ih]
      rw [add_word_width]
      simp
      intro h
      omega

/-- from_str_go fails (necessarily with WordTooLong) exactly when some
word exceeds the length bound. -/
theorem from_str_go_err_iff : ∀ (ws : List (List Char)) (d : Document),
    Document.from_str_go d ws = Except.error DocError.WordTooLong ↔
      ∃ word ∈ ws, d.line_width < word.length := by
  intro ws
  induction ws with
  | nil => intro d; simp [Document.from_str_go]
  | cons word rest ih =>
    intro d
    rw [Document.from_str_go]
    by_cases hlen : word.length > d.line_width
    · simp [hlen]
    · simp only [hlen, if_false]
      rw [ih, add_word_width]
      simp
      intro h
      omega

/-- On success, from_str_go appends exactly the fed words to the
document's word sequence. -/
theorem from_str_go_words : ∀ (ws : List (List Char)) (d doc : Document),
    Document.from_str_go d ws = Except.ok doc → docWords doc = docWords d ++ ws := by
  intro ws
  induction ws with
  | nil =>
    intro d doc h
    simp [Document.from_str_go] at h
    simp [← h]
  | cons word rest ih =>
    intro d doc h
    rw [Document.from_str_go] at h
    by_cases hlen : word.length > d.line_width
    · simp [hlen] at h
    · simp [hlen] at h
      rw [ih _ _ h, add_word_words]
      simp

/-- On success, every line of the resulting document satisfies the
packing invariant, provided all fed words are plain. -/
theorem from_str_go_inv : ∀ (ws : List (List Char)) (d doc : Document),
    Document.from_str_go d ws = Except.ok doc →
    (∀ word ∈ ws, plainWord word) →
    (∀ l ∈ d.lines, LineInv d.line_width l) →
    ∀ l ∈ doc.lines, LineInv d.line_width l := by
  intro ws
  induction ws with
  | nil =>
    intro d doc h _ hinv
    simp [Document.from_str_go] at h
    rwa [← h]
  | cons word rest ih =>
    intro d doc h hplain hinv
    rw [Document.from_str_go] at h
    by_cases hlen : word.length > d.line_width
    · simp [hlen] at h
    · simp [hlen] at h
      have h1 : ∀ l ∈ (d.add_word word).lines, LineInv d.line_width l :=
        add_word_inv d word (by omega) (hplain word (by simp)) hinv
      have := ih _ _ h (fun wrd hm => hplain wrd (by simp [hm]))
      rw [add_word_width] at this
      exact this h1

/-!  Facts about whitespace splitting. -/

/-- Every word produced by the splitter is nonempty and whitespace-free. -/
theorem split_whitespace_go_plain : ∀ (s acc : List Char),
    (∀ c ∈ acc, c.isWhitespace = false) →
    ∀ word ∈ split_whitespace_go s acc, plainWord word := by
  intro s
  induction s with
  | nil =>
    intro acc hacc word hm
    rw [split_whitespace_go] at hm
    by_cases h : acc = []
    · simp [h] at hm
    · simp [h] at hm
      subst hm
      exact ⟨by simpa using h, fun c hc => hacc c (by simpa using hc)⟩
  | cons c rest ih =>
    intro acc hacc word hm
    rw [split_whitespace_go] at hm
    by_cases hws : c.isWhitespace
    · by_cases h : acc = []
      · simp [hws, h] at hm
        exact ih [] (by simp) word hm
      · simp [hws, h] at hm
        rcases hm with hm | hm
        · subst hm
          exact ⟨by simpa using h, fun x hx => hacc x (by simpa using hx)⟩
        · exact ih [] (by simp) word hm
    · simp [hws] at hm
      refine ih (c :: acc) ?_ word hm
      intro x hx
      rcases List.mem_cons.mp hx with hx | hx
      · subst hx; simpa using hws
      · exact hacc x hx

/-- Every word of split_whitespace is plain. -/
theorem split_whitespace_plain (input : List Char) :
    ∀ word ∈ split_whitespace input, plainWord word :=
  split_whitespace_go_plain input [] (by simp)

/-- Consuming a whitespace-free block appends its reverse to the
accumulator. -/
theorem split_go_word : ∀ (word s acc : List Char),
    (∀ c ∈ word, c.isWhitespace = false) →
    split_whitespace_go (word ++ s) acc = split_whitespace_go s (word.reverse ++ acc) := by
  intro word
  induction word with
  | nil => intro s acc _; simp
  | cons c rest ih =>
    intro s acc h
    have hc : c.isWhitespace = false := h c (by simp)
    rw [List.cons_append, split_whitespace_go]
    simp only [hc, Bool.false_eq_true, if_false]
    rw [ih s (c :: acc) (fun x hx => h x (by simp [hx]))]
    simp

/-- Consuming whitespace with an empty accumulator emits nothing. -/
theorem split_go_ws_skip : ∀ (g s : List Char),
    (∀ c ∈ g, c.isWhitespace = true) →
    split_whitespace_go (g ++ s) [] = split_whitespace_go s [] := by
  intro g
  induction g with
  | nil => intro s _; simp
  | cons c rest ih =>
    intro s h
    have hc : c.isWhitespace = true := h c (by simp)
    rw [List.cons_append, split_whitespace_go]
    simp only [hc, if_true]
    exact ih s (fun x hx => h x (by simp [hx]))

/-- Consuming nonempty whitespace with a nonempty accumulator flushes the
accumulated word. -/
theorem split_go_ws_flush : ∀ (g s acc : List Char),
    (∀ c ∈ g, c.isWhitespace = true) → g ≠ [] → acc ≠ [] →
    split_whitespace_go (g ++ s) acc = acc.reverse :: split_whitespace_go s [] := by
  intro g s acc hws hg hacc
  cases g with
  | nil => exact absurd rfl hg
  | cons c rest =>
    have hc : c.isWhitespace = true := hws c (by simp)
    rw [List.cons_append, split_whitespace_go]
    simp only [hc, if_true, hacc, if_false]
    rw [split_go_ws_skip rest s (fun x hx => hws x (by simp [hx]))]

/-- Whitespace-only text splits to no words at all. -/
theorem split_go_ws_all : ∀ (g : List Char),
    (∀ c ∈ g, c.isWhitespace = true) → split_whitespace_go g [] = [] := by
  intro g
  induction g with
  | nil => intro _; simp [split_whitespace_go]
  | cons c rest ih =>
    intro h
    rw [split_whitespace_go]
    simp [h c (by simp), ih (fun x hx => h x (by simp [hx]))]

/-- chunksText distributes over append. -/
theorem chunksText_append : ∀ (a b : List (List Char × List Char)),
    chunksText (a ++ b) = chunksText a ++ chunksText b := by
  intro a
  induction a with
  | nil => intro b; simp [chunksText]
  | cons p rest ih => intro b; simp [chunksText, ih]

/-- Splitting the text of a word/gap chunk list recovers exactly the
words, when words are plain, gaps are whitespace, and only the final gap
may be empty. -/
theorem split_chunksText : ∀ (cl : List (List Char × List Char)),
    (∀ p ∈ cl, plainWord p.1) →
    (∀ p ∈ cl, ∀ c ∈ p.2, c.isWhitespace = true) →
    (∀ p ∈ cl.dropLast, p.2 ≠ []) →
    split_whitespace_go (chunksText cl) [] = cl.map Prod.fst := by
  intro cl
  induction cl with
  | nil => intro _ _ _; simp [chunksText, split_whitespace_go]
  | cons p rest ih =>
    intro hword hgap hne
    obtain ⟨word, gap⟩ := p
    have hw : plainWord word := hword (word, gap) (by simp)
    have hg : ∀ c ∈ gap, c.isWhitespace = true := by
      have := hgap (word, gap) (by simp)
      simpa using this
    rw [chunksText]
    simp only
    rw [List.append_assoc, split_go_word word _ [] hw.2]
    cases rest with
    | nil =>
      rw [chunksText]
      simp only [List.append_nil]
      cases hgap0 : gap with
      | nil =>
        rw [split_whitespace_go]
        simp [hw.1]
      | cons c g =>
        subst hgap0
        have hc : c.isWhitespace = true := hg c (by simp)
        rw [split_whitespace_go, if_pos hc, if_neg (by simp [hw.1])]
        rw [split_go_ws_all g (fun x hx => hg x (by simp [hx]))]
        simp
    | cons q rest2 =>
      have hgne : gap ≠ [] := by
        have := hne (word, gap) (by simp [List.dropLast])
        simpa using this
      rw [split_go_ws_flush gap _ (word.reverse ++ []) hg hgne (by simp [hw.1])]
      rw [ih (fun x hx => hword x (by simp [hx])) (fun x hx => hgap x (by simp [hx]))
          (fun x hx => hne x (by rw [List.dropLast_cons₂]; exact List.mem_cons_of_mem _ hx))]
      simp

/-!  Facts about the gap widths and the word loop of the renderer. -/

/-- mkGaps produces one width per gap. -/
theorem mkGaps_length (base_width extra : Nat) : ∀ (n k : Nat),
    (mkGaps base_width extra k n).length = n := by
  intro n
  induction n with
  | zero => intro k; rfl
  | succ m ih => intro k; rw [mkGaps]; simp [ih]

/-- Past the extra region every gap has the base width. -/
theorem mkGaps_ge (base_width extra : Nat) : ∀ (n k : Nat), extra ≤ k →
    mkGaps base_width extra k n = List.replicate n base_width := by
  intro n
  induction n with
  | zero => intro k _; rfl
  | succ m ih =>
    intro k h
    rw [mkGaps, if_neg (by omega), ih (k + 1) (by omega)]
    simp [List.replicate_succ]

/-- Inside the extra region every gap has the base width plus one. -/
theorem mkGaps_lt (base_width extra : Nat) : ∀ (n k : Nat), k + n ≤ extra →
    mkGaps base_width extra k n = List.replicate n (base_width + 1) := by
  intro n
  induction n with
  | zero => intro k _; rfl
  | succ m ih =>
    intro k h
    rw [mkGaps, if_pos (by omega), ih (k + 1) (by omega)]
    simp [List.replicate_succ]

/-- mkGaps splits additively over the gap count. -/
theorem mkGaps_append (base_width extra : Nat) : ∀ (m n k : Nat),
    mkGaps base_width extra k (m + n) =
      mkGaps base_width extra k m ++ mkGaps base_width extra (k + m) n := by
  intro m
  induction m with
  | zero => intro n k; simp [mkGaps]
  | succ m' ih =>
    intro n k
    have h1 : m' + 1 + n = (m' + n) + 1 := by omega
    rw [h1, mkGaps, mkGaps, ih n (k + 1)]
    have h2 : k + 1 + m' = k + (m' + 1) := by omega
    rw [h2]
    simp

/-- The full gap list: extra larger gaps first, then base-width gaps. -/
theorem mkGaps_split (base_width extra n : Nat) (h : extra ≤ n) :
    mkGaps base_width extra 0 n =
      List.replicate extra (base_width + 1) ++ List.replicate (n - extra) base_width := by
  have hn : n = extra + (n - extra) := by omega
  conv_lhs => rw [hn]
  rw [mkGaps_append]
  rw [mkGaps_lt base_width extra extra 0 (by omega)]
  rw [mkGaps_ge base_width extra (n - extra) (0 + extra) (by omega)]

/-- The gap widths sum to the whole distributed whitespace. -/
theorem mkGaps_sum (base_width extra n : Nat) (h : extra ≤ n) :
    (mkGaps base_width extra 0 n).sum = n * base_width + extra := by
  rw [mkGaps_split base_width extra n h]
  rw [List.sum_append, sum_replicate_nat, sum_replicate_nat]
  have : extra * (base_width + 1) = extra * base_width + extra := by ring
  rw [this]
  have h2 : extra * base_width + (n - extra) * base_width = n * base_width := by
    rw [← Nat.add_mul]
    congr 1
    omega
  omega

/-- joinWithGaps on two or more words with an available gap width. -/
theorem joinWithGaps_cons_cons (word x : List Char) (rest : List (List Char)) (g : Nat)
    (gs : List Nat) :
    joinWithGaps (word :: x :: rest) (g :: gs) =
      word ++ List.replicate g ' ' ++ joinWithGaps (x :: rest) gs := by
  rfl

/-- joinWithGaps on two or more words with no gap widths left. -/
theorem joinWithGaps_cons_nil (word x : List Char) (rest : List (List Char)) :
    joinWithGaps (word :: x :: rest) [] = word ++ joinWithGaps (x :: rest) [] := by
  rfl

/-- The word loop of the renderer is interleaving with the mkGaps gap
widths: a gap after every word except the last. -/
theorem render_words_eq (base_width extra : Nat) :
    ∀ (ws : List (List Char)) (k total : Nat), k + ws.length = total →
    render_words base_width extra (total - 1) k ws =
      joinWithGaps ws (mkGaps base_width extra k (ws.length - 1)) := by
  intro ws
  induction ws with
  | nil => intro k total _; rfl
  | cons word rest ih =>
    intro k total htot
    cases rest with
    | nil =>
      rw [render_words]
      have : ¬ (k < total - 1) := by simp at htot; omega
      simp [this, joinWithGaps, render_words, mkGaps]
    | cons x rest2 =>
      rw [render_words]
      have hk : k < total - 1 := by simp at htot; omega
      rw [if_pos hk]
      have hlen : (word :: x :: rest2).length - 1 = ((x :: rest2).length - 1) + 1 := by simp
      rw [hlen, mkGaps]
      rw [joinWithGaps_cons_cons]
      rw [ih (k + 1) total (by simp at htot ⊢; omega)]
      simp [add_whitespaces]

/-- Length of gap-interleaved text: all the words plus all the gaps. -/
theorem joinWithGaps_length : ∀ (ws : List (List Char)) (gs : List Nat),
    gs.length = ws.length - 1 →
    (joinWithGaps ws gs).length = (ws.map List.length).sum + gs.sum := by
  intro ws
  induction ws with
  | nil =>
    intro gs h
    simp at h
    simp [h, joinWithGaps]
  | cons word rest ih =>
    intro gs h
    cases rest with
    | nil =>
      simp at h
      simp [h, joinWithGaps]
    | cons x rest2 =>
      cases gs with
      | nil => simp at h
      | cons g gs2 =>
        rw [joinWithGaps_cons_cons]
        simp at h
        rw [List.length_append, List.length_append, ih gs2 (by simp; omega)]
        simp
        omega

/-- Every character of gap-interleaved text is a word character or a
space. -/
theorem joinWithGaps_mem : ∀ (ws : List (List Char)) (gs : List Nat) (c : Char),
    c ∈ joinWithGaps ws gs → (∃ word ∈ ws, c ∈ word) ∨ c = ' ' := by
  intro ws
  induction ws with
  | nil => intro gs c h; simp [joinWithGaps] at h
  | cons word rest ih =>
    intro gs c h
    cases rest with
    | nil =>
      simp [joinWithGaps] at h
      exact Or.inl ⟨word, by simp, h⟩
    | cons x rest2 =>
      cases gs with
      | nil =>
        rw [joinWithGaps_cons_nil] at h
        rcases List.mem_append.mp h with h | h
        · exact Or.inl ⟨word, by simp, h⟩
        · rcases ih [] c h with ⟨wrd, hm, hc⟩ | hc
          · exact Or.inl ⟨wrd, by simp [hm], hc⟩
          · exact Or.inr hc
      | cons g gs2 =>
        rw [joinWithGaps_cons_cons] at h
        rcases List.mem_append.mp h with h | h
        · rcases List.mem_append.mp h with h | h
          · exact Or.inl ⟨word, by simp, h⟩
          · exact Or.inr (List.eq_of_mem_replicate h)
        · rcases ih gs2 c h with ⟨wrd, hm, hc⟩ | hc
          · exact Or.inl ⟨wrd, by simp [hm], hc⟩
          · exact Or.inr hc

/-!  Facts about rendering a single line. -/

/-- A multi-word line renders as its words interleaved with the mkGaps
gap widths. -/
theorem render_line_multi (w : Nat) (l : Line) (h : 1 < l.word_count) :
    Document.render_line w l =
      joinWithGaps l.words
        (mkGaps ((w - l.char_count) / (l.word_count - 1))
          ((w - l.char_count) % (l.word_count - 1)) 0 (l.word_count - 1)) := by
  rw [Document.render_line, if_pos (by omega : l.word_count > 1)]
  have := render_words_eq ((w - l.char_count) / (l.word_count - 1))
    ((w - l.char_count) % (l.word_count - 1)) l.words 0 l.words.length (by omega)
  simpa [Line.word_count] using this

/-- A line satisfying the packing invariant and holding at most one word
holds exactly one. -/
theorem single_word_of_inv (l : Line) (hne : l.words ≠ []) (h : ¬ l.word_count > 1) :
    ∃ word, l.words = [word] := by
  cases hw : l.words with
  | nil => exact absurd hw hne
  | cons a t =>
    cases t with
    | nil => exact ⟨a, rfl⟩
    | cons b t2 =>
      exfalso
      rw [Line.word_count, hw] at h
      simp at h

/-- A line holding exactly one word renders as that word followed by
trailing padding. -/
theorem render_line_single (w : Nat) (l : Line) (word : List Char) (hwd : l.words = [word]) :
    Document.render_line w l = word ++ List.replicate (w - l.char_count) ' ' := by
  have h1 : ¬ l.word_count > 1 := by rw [Line.word_count, hwd]; simp
  rw [Document.render_line, if_neg h1, hwd]
  rfl

/-- A line satisfying the packing invariant renders to exactly the
configured width. -/
theorem render_line_length (w : Nat) (l : Line) (hinv : LineInv w l) :
    (Document.render_line w l).length = w := by
  obtain ⟨hne, hsum, hbound, hplain⟩ := hinv
  by_cases hmulti : l.word_count > 1
  · rw [render_line_multi w l hmulti]
    have hgc : 0 < l.word_count - 1 := by omega
    have hwc : l.word_count = l.words.length := rfl
    have hchar : l.char_counter ≤ w := by omega
    rw [joinWithGaps_length _ _ (by rw [mkGaps_length]; omega)]
    rw [mkGaps_sum _ _ _ (le_of_lt (Nat.mod_lt _ hgc))]
    rw [← hsum]
    have e3 : (l.word_count - 1) * ((w - l.char_count) / (l.word_count - 1)) +
        (w - l.char_count) % (l.word_count - 1) = w - l.char_count :=
      Nat.div_add_mod _ _
    rw [e3]
    rw [Line.char_count]
    omega
  · obtain ⟨word, hwd⟩ := single_word_of_inv l hne hmulti
    rw [render_line_single w l word hwd]
    have hchar : l.char_counter = word.length := by rw [hsum, hwd]; simp
    simp [Line.char_count, hchar]
    omega

/-- No character of a rendered line is a newline, under the packing
invariant. -/
theorem render_line_no_newline (w : Nat) (l : Line) (hinv : LineInv w l) :
    ∀ c ∈ Document.render_line w l, c ≠ '\n' := by
  obtain ⟨hne, hsum, hbound, hplain⟩ := hinv
  have hnlws : ('\n').isWhitespace = true := by decide
  intro c hc heq
  subst heq
  by_cases hmulti : l.word_count > 1
  · rw [render_line_multi w l hmulti] at hc
    rcases joinWithGaps_mem _ _ _ hc with ⟨word, hm, hcw⟩ | hsp
    · have := (hplain word hm).2 _ hcw
      rw [hnlws] at this
      exact Bool.noConfusion this
    · exact absurd hsp (by decide)
  · obtain ⟨word, hwd⟩ := single_word_of_inv l hne hmulti
    rw [render_line_single w l word hwd] at hc
    rcases List.mem_append.mp hc with hcw | hcr
    · have hx := (hplain word (by simp [hwd])).2 _ hcw
      rw [hnlws] at hx
      exact Bool.noConfusion hx
    · have hx := List.eq_of_mem_replicate hcr
      exact absurd hx (by decide)

/-!  Word/gap chunk views of rendered lines and documents. -/

/-- zipGaps on two or more words with an available gap width. -/
theorem zipGaps_cons_cons (word x : List Char) (rest : List (List Char)) (g : Nat)
    (gs : List Nat) (tail : List Char) :
    zipGaps (word :: x :: rest) (g :: gs) tail =
      (word, List.replicate g ' ') :: zipGaps (x :: rest) gs tail := by
  rfl

/-- The first components of zipGaps are exactly the words. -/
theorem zipGaps_fst : ∀ (ws : List (List Char)) (gs : List Nat) (tail : List Char),
    (zipGaps ws gs tail).map Prod.fst = ws := by
  intro ws
  induction ws with
  | nil => intro gs tail; rfl
  | cons word rest ih =>
    intro gs tail
    cases rest with
    | nil => simp [zipGaps]
    | cons x rest2 =>
      cases gs with
      | nil => simpa [zipGaps] using ih [] tail
      | cons g gs2 => rw [zipGaps_cons_cons]; simpa using ih gs2 tail

/-- zipGaps of a nonempty word list is nonempty. -/
theorem zipGaps_ne_nil (ws : List (List Char)) (gs : List Nat) (tail : List Char)
    (h : ws ≠ []) : zipGaps ws gs tail ≠ [] := by
  cases ws with
  | nil => exact absurd rfl h
  | cons word rest =>
    cases rest with
    | nil => simp [zipGaps]
    | cons x rest2 => cases gs with
      | nil => simp [zipGaps]
      | cons g gs2 => rw [zipGaps_cons_cons]; simp

/-- The text of zipGaps chunks is the gap-interleaved words followed by
the tail. -/
theorem zipGaps_chunksText : ∀ (ws : List (List Char)) (gs : List Nat) (tail : List Char),
    ws ≠ [] → chunksText (zipGaps ws gs tail) = joinWithGaps ws gs ++ tail := by
  intro ws
  induction ws with
  | nil => intro gs tail h; exact absurd rfl h
  | cons word rest ih =>
    intro gs tail _
    cases rest with
    | nil => simp [zipGaps, chunksText, joinWithGaps]
    | cons x rest2 =>
      cases gs with
      | nil =>
        rw [show zipGaps (word :: x :: rest2) [] tail = (word, []) :: zipGaps (x :: rest2) [] tail from rfl]
        rw [chunksText, joinWithGaps_cons_nil, ih [] tail (by simp)]
        simp
      | cons g gs2 =>
        rw [zipGaps_cons_cons, chunksText, joinWithGaps_cons_cons, ih gs2 tail (by simp)]
        simp

/-- Every chunk word of zipGaps is one of the given words. -/
theorem zipGaps_plain : ∀ (ws : List (List Char)) (gs : List Nat) (tail : List Char),
    (∀ word ∈ ws, plainWord word) → ∀ p ∈ zipGaps ws gs tail, plainWord p.1 := by
  intro ws
  induction ws with
  | nil => intro gs tail _ p hp; simp [zipGaps] at hp
  | cons word rest ih =>
    intro gs tail h p hp
    cases rest with
    | nil =>
      simp [zipGaps] at hp
      rw [hp]
      exact h word (by simp)
    | cons x rest2 =>
      cases gs with
      | nil =>
        rw [show zipGaps (word :: x :: rest2) [] tail = (word, []) :: zipGaps (x :: rest2) [] tail from rfl] at hp
        rcases List.mem_cons.mp hp with hp | hp
        · rw [hp]; exact h word (by simp)
        · exact ih [] tail (fun wrd hm => h wrd (by simp [hm])) p hp
      | cons g gs2 =>
        rw [zipGaps_cons_cons] at hp
        rcases List.mem_cons.mp hp with hp | hp
        · rw [hp]; exact h word (by simp)
        · exact ih gs2 tail (fun wrd hm => h wrd (by simp [hm])) p hp

/-- Every chunk gap of zipGaps is whitespace, when the tail is. -/
theorem zipGaps_gap_ws : ∀ (ws : List (List Char)) (gs : List Nat) (tail : List Char),
    (∀ c ∈ tail, c.isWhitespace = true) →
    ∀ p ∈ zipGaps ws gs tail, ∀ c ∈ p.2, c.isWhitespace = true := by
  intro ws
  induction ws with
  | nil => intro gs tail _ p hp; simp [zipGaps] at hp
  | cons word rest ih =>
    intro gs tail h p hp
    cases rest with
    | nil =>
      simp [zipGaps] at hp
      rw [hp]
      exact h
    | cons x rest2 =>
      cases gs with
      | nil =>
        rw [show zipGaps (word :: x :: rest2) [] tail = (word, []) :: zipGaps (x :: rest2) [] tail from rfl] at hp
        rcases List.mem_cons.mp hp with hp | hp
        · rw [hp]; intro c hc; simp at hc
        · exact ih [] tail h p hp
      | cons g gs2 =>
        rw [zipGaps_cons_cons] at hp
        rcases List.mem_cons.mp hp with hp | hp
        · rw [hp]
          intro c hc
          rw [List.eq_of_mem_replicate hc]
          decide
        · exact ih gs2 tail h p hp

/-- With positive gap widths (one per gap) and a nonempty tail, every
chunk gap of zipGaps is nonempty. -/
theorem zipGaps_snd_ne : ∀ (ws : List (List Char)) (gs : List Nat) (tail : List Char),
    (∀ g ∈ gs, 1 ≤ g) → gs.length = ws.length - 1 → tail ≠ [] →
    ∀ p ∈ zipGaps ws gs tail, p.2 ≠ [] := by
  intro ws
  induction ws with
  | nil => intro gs tail _ _ _ p hp; simp [zipGaps] at hp
  | cons word rest ih =>
    intro gs tail hg hlen htail p hp
    cases rest with
    | nil =>
      simp [zipGaps] at hp
      rw [hp]
      exact htail
    | cons x rest2 =>
      cases gs with
      | nil => simp at hlen
      | cons g gs2 =>
        rw [zipGaps_cons_cons] at hp
        rcases List.mem_cons.mp hp with hp | hp
        · rw [hp]
          have := hg g (by simp)
          simp
          omega
        · exact ih gs2 tail (fun x hx => hg x (by simp [hx])) (by simp at hlen ⊢; omega) htail p hp

/-- With positive gap widths (one per gap), every chunk gap of zipGaps
except possibly the final one is nonempty. -/
theorem zipGaps_dropLast_ne : ∀ (ws : List (List Char)) (gs : List Nat) (tail : List Char),
    (∀ g ∈ gs, 1 ≤ g) → gs.length = ws.length - 1 →
    ∀ p ∈ (zipGaps ws gs tail).dropLast, p.2 ≠ [] := by
  intro ws
  induction ws with
  | nil => intro gs tail _ _ p hp; simp [zipGaps] at hp
  | cons word rest ih =>
    intro gs tail hg hlen p hp
    cases rest with
    | nil =>
      simp [zipGaps] at hp
    | cons x rest2 =>
      cases gs with
      | nil => simp at hlen
      | cons g gs2 =>
        rw [zipGaps_cons_cons] at hp
        rw [List.dropLast_cons_of_ne_nil (zipGaps_ne_nil (x :: rest2) gs2 tail (by simp))] at hp
        rcases List.mem_cons.mp hp with hp | hp
        · rw [hp]
          have := hg g (by simp)
          simp
          omega
        · exact ih gs2 tail (fun y hy => hg y (by simp [hy])) (by simp at hlen ⊢; omega) p hp

/-- The chunk view of one rendered line followed by a tail: words paired
with the gaps the renderer emits after them, the tail after the last
word. -/
def lineChunks (line_width : Nat) (l : Line) (tail : List Char) : List (List Char × List Char) :=
  if 1 < l.word_count then
    zipGaps l.words
      (mkGaps ((line_width - l.char_count) / (l.word_count - 1))
        ((line_width - l.char_count) % (l.word_count - 1)) 0 (l.word_count - 1)) tail
  else
    [((match l.words.head? with
       | some word => word
       | none => []), add_whitespaces (line_width - l.char_count) ++ tail)]

/-- The chunk view of a rendered document: every line contributes its
chunks, with a newline tail on all lines but the last. -/
def docChunks (line_width : Nat) : List Line → List (List Char × List Char)
  | [] => []
  | [l] => lineChunks line_width l []
  | l :: rest => lineChunks line_width l ['\n'] ++ docChunks line_width rest

/-- The text of a line's chunks is the rendered line plus the tail. -/
theorem lineChunks_text (line_width : Nat) (l : Line) (tail : List Char) :
    chunksText (lineChunks line_width l tail) = Document.render_line line_width l ++ tail := by
  by_cases hmulti : 1 < l.word_count
  · rw [lineChunks, if_pos hmulti, render_line_multi line_width l hmulti]
    exact zipGaps_chunksText _ _ _ (by rw [Line.word_count] at hmulti; intro h; rw [h] at hmulti; simp at hmulti)
  · rw [lineChunks, if_neg hmulti, Document.render_line, if_neg (by omega : ¬ l.word_count > 1)]
    rw [chunksText, chunksText]
    simp

/-- The words of a line's chunks are the line's words. -/
theorem lineChunks_fst (line_width : Nat) (l : Line) (tail : List Char)
    (hne : l.words ≠ []) :
    (lineChunks line_width l tail).map Prod.fst = l.words := by
  by_cases hmulti : 1 < l.word_count
  · rw [lineChunks, if_pos hmulti]
    exact zipGaps_fst _ _ _
  · obtain ⟨word, hwd⟩ := single_word_of_inv l hne (by omega)
    rw [lineChunks, if_neg hmulti, hwd]
    simp

/-- A line's chunk list is never empty. -/
theorem lineChunks_ne_nil (line_width : Nat) (l : Line) (tail : List Char) :
    lineChunks line_width l tail ≠ [] := by
  by_cases hmulti : 1 < l.word_count
  · rw [lineChunks, if_pos hmulti]
    exact zipGaps_ne_nil _ _ _ (by rw [Line.word_count] at hmulti; intro h; rw [h] at hmulti; simp at hmulti)
  · rw [lineChunks, if_neg hmulti]
    simp

/-- Every chunk word of a line is plain, under the packing invariant. -/
theorem lineChunks_plain (w line_width : Nat) (l : Line) (tail : List Char)
    (hinv : LineInv w l) :
    ∀ p ∈ lineChunks line_width l tail, plainWord p.1 := by
  obtain ⟨hne, hsum, hbound, hplain⟩ := hinv
  by_cases hmulti : 1 < l.word_count
  · rw [lineChunks, if_pos hmulti]
    exact zipGaps_plain _ _ _ hplain
  · obtain ⟨word, hwd⟩ := single_word_of_inv l hne (by omega)
    rw [lineChunks, if_neg hmulti, hwd]
    intro p hp
    simp at hp
    rw [hp]
    exact hplain word (by simp [hwd])

/-- Every chunk gap of a line is whitespace, when the tail is. -/
theorem lineChunks_gap_ws (line_width : Nat) (l : Line) (tail : List Char)
    (htail : ∀ c ∈ tail, c.isWhitespace = true) :
    ∀ p ∈ lineChunks line_width l tail, ∀ c ∈ p.2, c.isWhitespace = true := by
  by_cases hmulti : 1 < l.word_count
  · rw [lineChunks, if_pos hmulti]
    exact zipGaps_gap_ws _ _ _ htail
  · rw [lineChunks, if_neg hmulti]
    intro p hp
    simp at hp
    rw [hp]
    intro c hc
    rcases List.mem_append.mp hc with hc | hc
    · have hcsp : c = ' ' := List.eq_of_mem_replicate (by simpa [add_whitespaces] using hc)
      rw [hcsp]
      decide
    · exact htail c hc

/-- In a line that packs within the width, every inner gap width is at
least one. -/
theorem line_gaps_pos (w : Nat) (l : Line) (hinv : LineInv w l) (hmulti : 1 < l.word_count) :
    ∀ g ∈ mkGaps ((w - l.char_count) / (l.word_count - 1))
        ((w - l.char_count) % (l.word_count - 1)) 0 (l.word_count - 1), 1 ≤ g := by
  obtain ⟨hne, hsum, hbound, hplain⟩ := hinv
  intro g hg
  have hgc : 0 < l.word_count - 1 := by omega
  have hwc : l.word_count = l.words.length := rfl
  have hle : l.word_count - 1 ≤ w - l.char_count := by
    rw [Line.char_count]
    omega
  have hbase : 1 ≤ (w - l.char_count) / (l.word_count - 1) :=
    (Nat.one_le_div_iff hgc).mpr hle
  rw [mkGaps_split _ _ _ (le_of_lt (Nat.mod_lt _ hgc))] at hg
  rcases List.mem_append.mp hg with hg | hg
  · rw [List.eq_of_mem_replicate hg]; omega
  · rw [List.eq_of_mem_replicate hg]; omega

/-- All gaps of a line's chunks are nonempty when the tail is nonempty,
under the packing invariant. -/
theorem lineChunks_snd_ne (w : Nat) (l : Line) (tail : List Char)
    (hinv : LineInv w l) (htail : tail ≠ []) :
    ∀ p ∈ lineChunks w l tail, p.2 ≠ [] := by
  by_cases hmulti : 1 < l.word_count
  · rw [lineChunks, if_pos hmulti]
    exact zipGaps_snd_ne _ _ _ (line_gaps_pos w l hinv hmulti)
      (by rw [mkGaps_length]; rfl) htail
  · rw [lineChunks, if_neg hmulti]
    intro p hp
    simp at hp
    rw [hp]
    simp [htail]

/-- All gaps of a line's chunks except possibly the last are nonempty,
under the packing invariant. -/
theorem lineChunks_dropLast_ne (w : Nat) (l : Line) (tail : List Char)
    (hinv : LineInv w l) :
    ∀ p ∈ (lineChunks w l tail).dropLast, p.2 ≠ [] := by
  by_cases hmulti : 1 < l.word_count
  · rw [lineChunks, if_pos hmulti]
    exact zipGaps_dropLast_ne _ _ _ (line_gaps_pos w l hinv hmulti)
      (by rw [mkGaps_length]; rfl)
  · rw [lineChunks, if_neg hmulti]
    intro p hp
    simp at hp

/-- joinedWithNewlines on two or more segments. -/
theorem joinedWithNewlines_cons_cons (s x : List Char) (rest : List (List Char)) :
    joinedWithNewlines (s :: x :: rest) = s ++ '\n' :: joinedWithNewlines (x :: rest) := by
  rfl

/-- The text of a document's chunks is the newline-joined rendering of
its lines. -/
theorem docChunks_text (line_width : Nat) : ∀ (ls : List Line),
    chunksText (docChunks line_width ls) =
      joinedWithNewlines (ls.map (Document.render_line line_width)) := by
  intro ls
  induction ls with
  | nil => rfl
  | cons l rest ih =>
    cases rest with
    | nil =>
      rw [show docChunks line_width [l] = lineChunks line_width l [] from rfl]
      rw [lineChunks_text]
      simp [joinedWithNewlines]
    | cons x rest2 =>
      rw [show docChunks line_width (l :: x :: rest2) =
            lineChunks line_width l ['\n'] ++ docChunks line_width (x :: rest2) from rfl]
      rw [chunksText_append, lineChunks_text, ih]
      simp only [List.map_cons]
      rw [joinedWithNewlines_cons_cons]
      simp

/-- The words of a document's chunks are all its words in order. -/
theorem docChunks_fst (line_width : Nat) : ∀ (ls : List Line),
    (∀ l ∈ ls, l.words ≠ []) →
    (docChunks line_width ls).map Prod.fst = (ls.map Line.words).flatten := by
  intro ls
  induction ls with
  | nil => intro _; rfl
  | cons l rest ih =>
    intro hne
    cases rest with
    | nil =>
      rw [show docChunks line_width [l] = lineChunks line_width l [] from rfl]
      rw [lineChunks_fst _ _ _ (hne l (by simp))]
      simp
    | cons x rest2 =>
      rw [show docChunks line_width (l :: x :: rest2) =
            lineChunks line_width l ['\n'] ++ docChunks line_width (x :: rest2) from rfl]
      rw [List.map_append, lineChunks_fst _ _ _ (hne l (by simp)),
          ih (fun y hy => hne y (by simp [hy]))]
      simp

/-- Every chunk word of a document is plain, under the packing
invariant. -/
theorem docChunks_plain (w : Nat) : ∀ (ls : List Line),
    (∀ l ∈ ls, LineInv w l) →
    ∀ p ∈ docChunks w ls, plainWord p.1 := by
  intro ls
  induction ls with
  | nil => intro _ p hp; simp [docChunks] at hp
  | cons l rest ih =>
    intro hinv p hp
    cases rest with
    | nil =>
      rw [show docChunks w [l] = lineChunks w l [] from rfl] at hp
      exact lineChunks_plain w w l [] (hinv l (by simp)) p hp
    | cons x rest2 =>
      rw [show docChunks w (l :: x :: rest2) =
            lineChunks w l ['\n'] ++ docChunks w (x :: rest2) from rfl] at hp
      rcases List.mem_append.mp hp with hp | hp
      · exact lineChunks_plain w w l ['\n'] (hinv l (by simp)) p hp
      · exact ih (fun y hy => hinv y (by simp [hy])) p hp

/-- Every chunk gap of a document is whitespace. -/
theorem docChunks_gap_ws (w : Nat) : ∀ (ls : List Line),
    ∀ p ∈ docChunks w ls, ∀ c ∈ p.2, c.isWhitespace = true := by
  intro ls
  induction ls with
  | nil => intro p hp; simp [docChunks] at hp
  | cons l rest ih =>
    intro p hp
    cases rest with
    | nil =>
      rw [show docChunks w [l] = lineChunks w l [] from rfl] at hp
      exact lineChunks_gap_ws w l [] (by simp) p hp
    | cons x rest2 =>
      rw [show docChunks w (l :: x :: rest2) =
            lineChunks w l ['\n'] ++ docChunks w (x :: rest2) from rfl] at hp
      rcases List.mem_append.mp hp with hp | hp
      · refine lineChunks_gap_ws w l ['\n'] ?_ p hp
        intro c hc
        simp at hc
        rw [hc]
        decide
      · exact ih p hp

/-- A document's chunk list is nonempty when it has lines. -/
theorem docChunks_ne_nil (w : Nat) : ∀ (ls : List Line), ls ≠ [] →
    docChunks w ls ≠ [] := by
  intro ls h
  cases ls with
  | nil => exact absurd rfl h
  | cons l rest =>
    cases rest with
    | nil => exact lineChunks_ne_nil w l []
    | cons x rest2 =>
      rw [show docChunks w (l :: x :: rest2) =
            lineChunks w l ['\n'] ++ docChunks w (x :: rest2) from rfl]
      simp
      intro hc
      exact absurd hc (lineChunks_ne_nil w l ['\n'])

/-- Every chunk gap of a document except possibly the very last is
nonempty, under the packing invariant. -/
theorem docChunks_dropLast_ne (w : Nat) : ∀ (ls : List Line),
    (∀ l ∈ ls, LineInv w l) →
    ∀ p ∈ (docChunks w ls).dropLast, p.2 ≠ [] := by
  intro ls
  induction ls with
  | nil => intro _ p hp; simp [docChunks] at hp
  | cons l rest ih =>
    intro hinv p hp
    cases rest with
    | nil =>
      rw [show docChunks w [l] = lineChunks w l [] from rfl] at hp
      exact lineChunks_dropLast_ne w l [] (hinv l (by simp)) p hp
    | cons x rest2 =>
      rw [show docChunks w (l :: x :: rest2) =
            lineChunks w l ['\n'] ++ docChunks w (x :: rest2) from rfl] at hp
      rw [List.dropLast_append_of_ne_nil _ (docChunks_ne_nil w (x :: rest2) (by simp))] at hp
      rcases List.mem_append.mp hp with hp | hp
      · exact lineChunks_snd_ne w l ['\n'] (hinv l (by simp)) (by simp) p hp
      · exact ih (fun y hy => hinv y (by simp [hy])) p hp

/-!  Facts about newline splitting and joining. -/

/-- splitOnNl never returns an empty segment list. -/
theorem splitOnNl_ne_nil : ∀ (s : List Char), splitOnNl s ≠ [] := by
  intro s
  induction s with
  | nil => simp [splitOnNl]
  | cons c rest ih =>
    rw [splitOnNl]
    by_cases hc : c = '\n'
    · simp [hc]
    · simp only [hc, if_false]
      cases h : splitOnNl rest with
      | nil => simp
      | cons g gs => simp

/-- A newline-free string is a single segment. -/
theorem splitOnNl_no_nl : ∀ (s : List Char), (∀ c ∈ s, c ≠ '\n') → splitOnNl s = [s] := by
  intro s
  induction s with
  | nil => intro _; rfl
  | cons c rest ih =>
    intro h
    rw [splitOnNl]
    have hc : ¬ c = '\n' := h c (by simp)
    simp only [hc, if_false]
    rw [ih (fun x hx => h x (by simp [hx]))]

/-- Splitting after a newline-free prefix followed by a newline peels off
that prefix as the first segment. -/
theorem splitOnNl_append : ∀ (a b : List Char), (∀ c ∈ a, c ≠ '\n') →
    splitOnNl (a ++ '\n' :: b) = a :: splitOnNl b := by
  intro a
  induction a with
  | nil => intro b _; simp [splitOnNl]
  | cons c rest ih =>
    intro b h
    have hc : ¬ c = '\n' := h c (by simp)
    rw [List.cons_append, splitOnNl]
    simp only [hc, if_false]
    rw [ih b (fun x hx => h x (by simp [hx]))]

/-- Splitting newline-joined newline-free segments recovers the
segments. -/
theorem splitOnNl_joined : ∀ (rs : List (List Char)), rs ≠ [] →
    (∀ r ∈ rs, ∀ c ∈ r, c ≠ '\n') → splitOnNl (joinedWithNewlines rs) = rs := by
  intro rs
  induction rs with
  | nil => intro h _; exact absurd rfl h
  | cons r rest ih =>
    intro _ h
    cases rest with
    | nil =>
      rw [show joinedWithNewlines [r] = r from rfl]
      exact splitOnNl_no_nl r (h r (by simp))
    | cons x rest2 =>
      rw [joinedWithNewlines_cons_cons]
      rw [splitOnNl_append _ _ (h r (by simp))]
      rw [ih (by simp) (fun y hy => h y (by simp [hy]))]

/-!  The line loop rendered as a newline join. -/

/-- The counter-driven line loop equals the newline join of the rendered
lines, for the call pattern the renderer uses. -/
theorem render_lines_eq (line_width : Nat) : ∀ (ls : List Line) (k total : Nat),
    k + ls.length = total →
    render_lines line_width total k ls =
      joinedWithNewlines (ls.map (Document.render_line line_width)) := by
  intro ls
  induction ls with
  | nil => intro k total _; rfl
  | cons l rest ih =>
    intro k total htot
    cases rest with
    | nil =>
      rw [render_lines]
      have : ¬ (k < total - 1) := by simp at htot; omega
      simp [this, render_lines, joinedWithNewlines]
    | cons x rest2 =>
      rw [render_lines]
      have hk : k < total - 1 := by simp at htot; omega
      rw [if_pos hk]
      rw [ih (k + 1) total (by simp at htot ⊢; omega)]
      simp only [List.map_cons]
      rw [joinedWithNewlines_cons_cons]
      simp

/-- format_to_string is the newline join of the rendered lines. -/
theorem format_eq (d : Document) :
    d.format_to_string =
      joinedWithNewlines (d.lines.map (Document.render_line d.line_width)) :=
  render_lines_eq d.line_width d.lines 0 d.lines.length (by omega)

/-!  Top-level facts about from_str. -/

/-- A successful from_str yields the input's width, exactly the input's
words, and lines satisfying the packing invariant. -/
theorem from_str_ok (input : List Char) (w : Nat) (doc : Document)
    (h : Document.from_str input w = Except.ok doc) :
    doc.line_width = w ∧ docWords doc = split_whitespace input ∧
      ∀ l ∈ doc.lines, LineInv w l := by
  rw [Document.from_str] at h
  refine ⟨from_str_go_width _ _ _ h, ?_, ?_⟩
  · have := from_str_go_words _ _ _ h
    simpa [docWords] using this
  · have := from_str_go_inv _ _ _ h (fun word hm => split_whitespace_plain input word hm)
      (by intro l hl; simp at hl)
    exact this

/-- Decidable equality of results, for concrete evaluation. -/
instance exceptDecEq {e a : Type} [DecidableEq e] [DecidableEq a] :
    DecidableEq (Except e a) := fun x y =>
  match x, y with
  | Except.ok u, Except.ok v =>
    if h : u = v then Decidable.isTrue (by rw [h]) else Decidable.isFalse (by simp [h])
  | Except.error u, Except.error v =>
    if h : u = v then Decidable.isTrue (by rw [h]) else Decidable.isFalse (by simp [h])
  | Except.ok _, Except.error _ => Decidable.isFalse (by simp)
  | Except.error _, Except.ok _ => Decidable.isFalse (by simp)

/-- from_str fails, necessarily with WordTooLong, exactly when some word
of the input exceeds the width. -/
theorem from_str_err_iff (input : List Char) (w : Nat) :
    Document.from_str input w = Except.error DocError.WordTooLong ↔
      ∃ word ∈ split_whitespace input, w < word.length := by
  rw [Document.from_str]
  exact from_str_go_err_iff _ _

/-- from_str succeeds exactly when every word of the input meets the
width. -/
theorem from_str_succeeds_iff (input : List Char) (w : Nat) :
    (∃ doc, Document.from_str input w = Except.ok doc) ↔
      ∀ word ∈ split_whitespace input, word.length ≤ w := by
  rw [Document.from_str]
  exact from_str_go_ok_iff _ _

/-!  The claims. -/

/-- C1: for every input string and line_width of at least 1 on which
transform succeeds with at least one line, every line of the returned
string, obtained by splitting it on the newline character, has length
exactly line_width. -/
theorem C1_fixed_width (input : List Char) (w : Nat) (out : List Char) (doc : Document)
    (_hw : 1 ≤ w) (hdoc : Document.from_str input w = Except.ok doc)
    (hlines : doc.lines ≠ []) (h : transform input w = Except.ok out) :
    ∀ line ∈ splitOnNl out, line.length = w := by
  rw [transform, hdoc] at h
  simp [Except.map] at h
  obtain ⟨hwidth, hwords, hinv⟩ := from_str_ok input w doc hdoc
  rw [← h, format_eq, hwidth]
  rw [splitOnNl_joined _ (by simpa using hlines) ?_]
  · intro line hm
    rcases List.mem_map.mp hm with ⟨l, hl, hrl⟩
    rw [← hrl]
    exact render_line_length w l (hinv l hl)
  · intro r hr c hc
    rcases List.mem_map.mp hr with ⟨l, hl, hrl⟩
    rw [← hrl] at hc
    exact render_line_no_newline w l (hinv l hl) c hc

/-- C1 witness at input "a  b", width 3. -/
theorem C1_fixed_width_witness : (['a', ' ', 'b'] : List Char).length = 3 :=
  C1_fixed_width (String.toList "a  b") 3 ['a', ' ', 'b']
    ⟨[⟨[['a'], ['b']], 2⟩], 3⟩ (by decide) (by decide) (by decide) (by decide)
    ['a', ' ', 'b'] (by decide)

/-- C2: transform fails, necessarily with WordTooLong, exactly when some
whitespace-delimited word of the input is strictly longer than
line_width; every other input succeeds; no other error kind exists; and
validation short-circuits on the first offending word. -/
theorem C2_error_iff (input : List Char) (w : Nat) :
    (transform input w = Except.error DocError.WordTooLong ↔
      ∃ word ∈ split_whitespace input, w < word.length) ∧
    ((∃ out, transform input w = Except.ok out) ↔
      ∀ word ∈ split_whitespace input, word.length ≤ w) ∧
    (∀ e : DocError, e = DocError.WordTooLong) ∧
    (∀ (d : Document) (word : List Char) (rest : List (List Char)),
      d.line_width < word.length →
      Document.from_str_go d (word :: rest) = Except.error DocError.WordTooLong) := by
  refine ⟨?_, ?_, ?_, ?_⟩
  · rw [← from_str_err_iff input w, transform]
    cases hfs : Document.from_str input w with
    | error e =>
      cases e
      simp [Except.map]
    | ok doc =>
      simp [Except.map]
  · rw [← from_str_succeeds_iff input w, transform]
    constructor
    · rintro ⟨out, hout⟩
      cases hfs : Document.from_str input w with
      | error e =>
        rw [hfs] at hout
        simp [Except.map] at hout
      | ok doc => exact ⟨doc, rfl⟩
    · rintro ⟨doc, hdoc⟩
      rw [hdoc]
      exact ⟨doc.format_to_string, rfl⟩
  · intro e
    cases e
    rfl
  · intro d word rest hlen
    rw [Document.from_str_go, if_pos (by omega)]

/-- C2 witness: a three-character word fails at width 2. -/
theorem C2_error_iff_witness :
    transform (String.toList "abc") 2 = Except.error DocError.WordTooLong :=
  (C2_error_iff (String.toList "abc") 2).1.mpr (by decide)

/-- C3: on every successful transform, splitting the output on whitespace
yields exactly the words of the input, in order. -/
theorem C3_word_preservation (input : List Char) (w : Nat) (out : List Char)
    (h : transform input w = Except.ok out) :
    split_whitespace out = split_whitespace input := by
  rw [transform] at h
  cases hfs : Document.from_str input w with
  | error e => rw [hfs] at h; simp [Except.map] at h
  | ok doc =>
    rw [hfs] at h
    simp [Except.map] at h
    obtain ⟨hwidth, hwords, hinv⟩ := from_str_ok input w doc hfs
    rw [← h, format_eq, hwidth]
    rw [← docChunks_text]
    rw [split_whitespace]
    rw [split_chunksText _ (docChunks_plain w doc.lines hinv) (docChunks_gap_ws w doc.lines)
        (docChunks_dropLast_ne w doc.lines hinv)]
    rw [docChunks_fst w doc.lines (fun l hl => (hinv l hl).1)]
    exact hwords

/-- C3 witness: the doubled space of "a  b" collapses yet the words
survive. -/
theorem C3_word_preservation_witness :
    split_whitespace (String.toList "a b") = split_whitespace (String.toList "a  b") :=
  C3_word_preservation (String.toList "a  b") 3 (String.toList "a b") (by decide)

/-- C4: the fit test judges that a word fits exactly when char_count +
word_count + word.length stays within line_width; the reserved-space term
is word_count, not word_count - 1, which rejects some words the relaxed
formula would admit. -/
theorem C4_fit_test :
    (∀ (l : Line) (word : List Char) (line_width : Nat),
      l.word_fits word line_width = true ↔
        l.char_count + l.word_count + word.length ≤ line_width) ∧
    (∃ (l : Line) (word : List Char) (line_width : Nat),
      l.char_count + (l.word_count - 1) + word.length ≤ line_width ∧
      l.word_fits word line_width = false) := by
  constructor
  · intro l word line_width
    simp [Line.word_fits]
  · exact ⟨(Line.new_with_word ['a', 'b']).add_word ['c', 'd'], ['e'], 6, by decide, by decide⟩

/-- C4 witness: the fit test accepts a one-character word on an open
two-character line at width 6. -/
theorem C4_fit_test_witness : (Line.new_with_word ['a', 'b']).word_fits ['c'] 6 = true :=
  (C4_fit_test.1 (Line.new_with_word ['a', 'b']) ['c'] 6).mpr (by decide)

/-- C5: a multi-word line renders as its words interleaved with gaps:
the first whitespace_count mod gap_count gaps are one space wider than
the integer quotient, all remaining gaps are exactly the quotient, no
spaces follow the final word, so exactly extra gaps are the larger width
and they occupy the leftmost gap positions. -/
theorem C5_gap_distribution (l : Line) (w : Nat) (h : 1 < l.word_count) :
    Document.render_line w l =
      joinWithGaps l.words
        (List.replicate ((w - l.char_count) % (l.word_count - 1))
            ((w - l.char_count) / (l.word_count - 1) + 1) ++
          List.replicate ((l.word_count - 1) - (w - l.char_count) % (l.word_count - 1))
            ((w - l.char_count) / (l.word_count - 1))) := by
  rw [render_line_multi w l h]
  rw [mkGaps_split _ _ _ (le_of_lt (Nat.mod_lt _ (by omega)))]

/-- C5 witness: three one-character words at width 6 give gap widths 2
then 1. -/
theorem C5_gap_distribution_witness :
    Document.render_line 6 ⟨[['a'], ['b'], ['c']], 3⟩ =
      joinWithGaps [['a'], ['b'], ['c']] (List.replicate 1 2 ++ List.replicate 1 1) := by
  rw [C5_gap_distribution ⟨[['a'], ['b'], ['c']], 3⟩ 6 (by decide)]
  decide

/-- C6: packing is a single greedy pass over the words: a new line holding
only the word is started exactly when the line list is empty or the word
does not fit the last line, and otherwise the word is appended to the
last line. -/
theorem C6_greedy_packing (d : Document) (word : List Char) :
    ((d.lines = [] ∨ ∃ last, d.lines.getLast? = some last ∧
        last.word_fits word d.line_width = false) →
      (d.add_word word).lines = d.lines ++ [Line.new_with_word word]) ∧
    (∀ last, d.lines.getLast? = some last → last.word_fits word d.line_width = true →
      (d.add_word word).lines = d.lines.dropLast ++ [last.add_word word]) := by
  constructor
  · intro h
    rcases h with h | ⟨last, hl, hf⟩
    · rw [add_word_nil d word h, h]
      simp
    · exact add_word_new d last word hl hf
  · intro last hl hf
    exact add_word_fits d last word hl hf

/-- C6 witness: adding a word to an empty document starts the first
line. -/
theorem C6_greedy_packing_witness :
    ((Document.mk [] 5).add_word ['a', 'b']).lines = [Line.new_with_word ['a', 'b']] := by
  have h := (C6_greedy_packing (Document.mk [] 5) ['a', 'b']).1 (Or.inl rfl)
  simpa using h

/-- C7: a line holding exactly one word renders as the word followed by
line_width - char_count trailing spaces, and transform of "test" at
width 5 returns "test " with a single trailing space. -/
theorem C7_single_word :
    (∀ (l : Line) (w : Nat) (word : List Char), l.words = [word] →
      Document.render_line w l = word ++ List.replicate (w - l.char_count) ' ') ∧
    transform (String.toList "test") 5 = Except.ok (String.toList "test ") := by
  constructor
  · intro l w word hwd
    exact render_line_single w l word hwd
  · decide

/-- C7 witness: the word "test" on its own line at width 5. -/
theorem C7_single_word_witness :
    Document.render_line 5 ⟨[['t', 'e', 's', 't']], 4⟩ =
      ['t', 'e', 's', 't'] ++
        List.replicate (5 - (Line.mk [['t', 'e', 's', 't']] 4).char_count) ' ' :=
  C7_single_word.1 ⟨[['t', 'e', 's', 't']], 4⟩ 5 ['t', 'e', 's', 't'] rfl

/-- C8: rendered lines are joined by exactly one newline between
consecutive lines with no trailing newline, a document with zero lines
renders to the empty string, and transform of the empty input succeeds
with the empty output at every width. -/
theorem C8_line_joining (w : Nat) :
    (∀ d : Document, d.format_to_string =
      joinedWithNewlines (d.lines.map (Document.render_line d.line_width))) ∧
    (∀ d : Document, d.lines = [] → d.format_to_string = []) ∧
    transform [] w = Except.ok [] := by
  refine ⟨format_eq, ?_, ?_⟩
  · intro d h
    rw [format_eq, h]
    rfl
  · rfl

/-- C8 witness: a zero-line document renders to the empty string. -/
theorem C8_line_joining_witness : (Document.mk [] 7).format_to_string = [] :=
  (C8_line_joining 7).2.1 (Document.mk [] 7) rfl

/-- C9: every line of a successfully built document satisfies
char_counter + (word_count - 1) ≤ line_width, and a single add_word step
preserves this invariant whenever the word has been validated against the
width. -/
theorem C9_invariant :
    (∀ (input : List Char) (w : Nat) (doc : Document),
      Document.from_str input w = Except.ok doc →
      ∀ l ∈ doc.lines, l.char_counter + (l.word_count - 1) ≤ w) ∧
    (∀ (d : Document) (word : List Char),
      word.length ≤ d.line_width →
      (∀ l ∈ d.lines, l.char_counter + (l.word_count - 1) ≤ d.line_width) →
      ∀ l ∈ (d.add_word word).lines, l.char_counter + (l.word_count - 1) ≤ d.line_width) := by
  constructor
  · intro input w doc h l hl
    obtain ⟨_, _, hinv⟩ := from_str_ok input w doc h
    obtain ⟨_, _, hbound, _⟩ := hinv l hl
    exact hbound
  · intro d word hw hinv l hl
    cases hlast : d.lines.getLast? with
    | none =>
      have hnil : d.lines = [] := List.getLast?_eq_none_iff.mp hlast
      rw [add_word_nil d word hnil] at hl
      simp at hl
      rw [hl]
      simp [Line.new_with_word, Line.word_count]
      omega
    | some last =>
      have hd : d.lines = d.lines.dropLast ++ [last] := getLast?_decomp _ _ hlast
      by_cases hf : last.word_fits word d.line_width = true
      · rw [add_word_fits d last word hlast hf] at hl
        rcases List.mem_append.mp hl with hl | hl
        · exact hinv l (by rw [hd]; exact List.mem_append_left _ hl)
        · simp at hl
          rw [hl]
          have hfit : last.char_counter + last.words.length + word.length ≤ d.line_width := by
            simpa [Line.word_fits, Line.char_count, Line.word_count] using hf
          simp [Line.add_word, Line.word_count]
          omega
      · rw [add_word_new d last word hlast (by simpa using hf)] at hl
        rcases List.mem_append.mp hl with hl | hl
        · exact hinv l hl
        · simp at hl
          rw [hl]
          simp [Line.new_with_word, Line.word_count]
          omega

/-- C9 witness: the single line of the document built from "ab cd" at
width 5. -/
theorem C9_invariant_witness :
    (Line.mk [['a', 'b'], ['c', 'd']] 4).char_counter +
      ((Line.mk [['a', 'b'], ['c', 'd']] 4).word_count - 1) ≤ 5 := by
  have h := C9_invariant
  exact h.1 (String.toList "ab cd") 5 ⟨[⟨[['a', 'b'], ['c', 'd']], 4⟩], 5⟩ (by decide)
    (Line.mk [['a', 'b'], ['c', 'd']] 4) (by simp)

/-- C10: every line ever created holds at least one word, so in a built
document the gap divisor word_count - 1 of the multi-word branch is
positive and line_width - char_count cannot underflow; at width 0,
transform returns the empty output on word-free input and WordTooLong
otherwise. -/
theorem C10_totality :
    (∀ word : List Char, (Line.new_with_word word).word_count = 1) ∧
    (∀ (l : Line) (word : List Char), (l.add_word word).word_count = l.word_count + 1) ∧
    (∀ (input : List Char) (w : Nat) (doc : Document),
      Document.from_str input w = Except.ok doc →
      ∀ l ∈ doc.lines, 1 ≤ l.word_count ∧ l.char_count ≤ w) ∧
    (∀ input : List Char, transform input 0 =
      if split_whitespace input = [] then Except.ok []
      else Except.error DocError.WordTooLong) := by
  refine ⟨?_, ?_, ?_, ?_⟩
  · intro word
    rfl
  · intro l word
    simp [Line.add_word, Line.word_count]
  · intro input w doc h l hl
    obtain ⟨_, _, hinv⟩ := from_str_ok input w doc h
    obtain ⟨hne, _, hbound, _⟩ := hinv l hl
    constructor
    · rw [Line.word_count]
      cases hx : l.words with
      | nil => exact absurd hx hne
      | cons a t => simp
    · rw [Line.char_count]
      omega
  · intro input
    cases hsw : split_whitespace input with
    | nil =>
      rw [if_pos rfl, transform, Document.from_str, hsw]
      rfl
    | cons word rest =>
      rw [if_neg (by simp)]
      have hplain := split_whitespace_plain input word (by rw [hsw]; simp)
      have herr : Document.from_str input 0 = Except.error DocError.WordTooLong := by
        rw [Document.from_str]
        refine (from_str_go_err_iff (split_whitespace input) ⟨[], 0⟩).mpr ?_
        refine ⟨word, by rw [hsw]; simp, ?_⟩
        have : word ≠ [] := hplain.1
        cases hx : word with
        | nil => exact absurd hx this
        | cons c t => simp
      rw [transform, herr]
      rfl

/-- C10 witness: a one-character input at width 0 fails with
WordTooLong. -/
theorem C10_totality_witness :
    transform (String.toList "x") 0 = Except.error DocError.WordTooLong := by
  have h4 := C10_totality.2.2.2 (String.toList "x")
  rw [h4, if_neg (by decide)]
